import Mathlib

/-!
Verification of the typed-encoding layer `redb-bincode`.

The layer (src/lib.rs, src/database.rs, src/tx.rs, src/traits.rs) maps typed
keys and values onto an ordered, byte-keyed storage engine (`redb`) via the
`bincode` binary codec.  The storage engine and the codec are external
collaborators (spec §1, §6): the engine is embedded here as a pure ordered
association list of raw byte strings, and the codec as a pair of pure
functions.  Rust panics (`unwrap` / `expect`) are embedded as `Option`
results, `none` denoting the panic; Rust `Result` is embedded as `Except`.
-/

/-- Raw byte strings handled by the engine and the codec. -/
abbrev Bytes := List Nat

/-- The binary codec boundary (spec §6): `encode` appends bytes and never
fails for well-formed values; `decode` returns the value together with the
number of bytes consumed, or fails (`none` embeds `DecodeError`). -/
structure Codec (α : Type) where
  encode : α → Bytes
  decode : Bytes → Option (α × Nat)

/-- The error values of the layer that the claims distinguish:
`ioInvalidData` embeds `redb::Error::Io` of kind `InvalidData` wrapping a
decode error (lib.rs get_many / get_many_where), `ioNotFound` embeds
`redb::Error::Io` of kind `NotFound` with its message (traits.rs). -/
inductive RedbErr where
  | ioInvalidData : RedbErr
  | ioNotFound : String → RedbErr
deriving DecidableEq, Repr

/-- Storage-engine errors surfaced verbatim (spec §7(a)); their internal
structure is irrelevant to the claims. -/
inductive StorageErr where
  | io : StorageErr
deriving DecidableEq, Repr

/-- Modelled from the spec: the `sort` module (`SortOrder`, `SortKey`,
`Lexicographical`) is not among the provided sources; spec §4.1 fixes the
default strategy used by `open_table` to plain byte-wise lexicographic
comparison of the encoded key bytes. -/
def ltBytes : Bytes → Bytes → Bool
  | [], [] => false
  | [], _ :: _ => true
  | _ :: _, [] => false
  | a :: as1, b :: bs1 => if a < b then true else if b < a then false else ltBytes as1 bs1

/-- The engine's raw named table: byte keys to byte values, kept in the
iteration order of the engine (ascending under the table's comparator). -/
abbrev RawTable := List (Bytes × Bytes)

/-- Engine primitive: ordered point lookup. -/
def rawGet : RawTable → Bytes → Option Bytes
  | [], _ => none
  | (k1, v1) :: rest, k => if k = k1 then some v1 else rawGet rest k

/-- Engine primitive: upsert returning the previous value, keeping the
list in comparator order. -/
def rawInsert : RawTable → Bytes → Bytes → Option Bytes × RawTable
  | [], k, v => (none, [(k, v)])
  | (k1, v1) :: rest, k, v =>
    if k = k1 then (some v1, (k, v) :: rest)
    else if ltBytes k k1 then (none, (k, v) :: (k1, v1) :: rest)
    else ((rawInsert rest k v).1, (k1, v1) :: (rawInsert rest k v).2)

/-- Engine primitive: point delete returning the removed value. -/
def rawRemove : RawTable → Bytes → Option Bytes × RawTable
  | [], _ => (none, [])
  | (k1, v1) :: rest, k =>
    if k = k1 then (some v1, rest)
    else ((rawRemove rest k).1, (k1, v1) :: (rawRemove rest k).2)

/-- Engine primitive `extract_if`, drained by `collect` (lib.rs
`remove_where`): every entry is offered to the predicate in iteration
order; entries on which it answers `true` are excised and yielded, the
rest are retained.  A predicate answer of `none` embeds a panic inside the
predicate closure, which aborts the whole drain. -/
def extractIf (q : Bytes → Bytes → Option Bool) :
    RawTable → Option (List (Bytes × Bytes) × RawTable)
  | [] => some ([], [])
  | (k, v) :: rest =>
    match q k v with
    | none => none
    | some true => (extractIf q rest).map (fun pr => ((k, v) :: pr.1, pr.2))
    | some false => (extractIf q rest).map (fun pr => (pr.1, (k, v) :: pr.2))

/-- `AccessGuard` (lib.rs 59-80): a deferred-decode handle over the raw
value bytes borrowed from the engine. -/
structure AccessGuard where
  bytes : Bytes
deriving DecidableEq, Repr

/-- `AccessGuard::value` (lib.rs 77-79): decode the borrowed bytes on
demand; `none` embeds the `DecodeError` result. -/
def AccessGuard.value {V : Type} (cV : Codec V) (g : AccessGuard) : Option V :=
  (cV.decode g.bytes).map Prod.fst

/-- `Table::get` (lib.rs 242-255): encode the key through the scratch
buffer, raw point lookup, wrap the hit in a guard.  The engine's storage
error channel is not modelled (the engine is pure here), so the
`Result<_, StorageError>` wrapper is dropped. -/
def Table.get {K : Type} (cK : Codec K) (t : RawTable) (k : K) : Option AccessGuard :=
  (rawGet t (cK.encode k)).map AccessGuard.mk

/-- `Table::insert` (lib.rs 259-286): encode key and value into their
scratch buffers, raw upsert, return the previous value (if any) as a
guard over the old raw bytes, plus the updated table state. -/
def Table.insert {K V : Type} (cK : Codec K) (cV : Codec V) (t : RawTable)
    (k : K) (v : V) : Option AccessGuard × RawTable :=
  ((rawInsert t (cK.encode k) (cV.encode v)).1.map AccessGuard.mk,
   (rawInsert t (cK.encode k) (cV.encode v)).2)

/-- `Table::remove` (lib.rs 290-303): encode the key, raw delete, return
the removed value (if any) as a guard. -/
def Table.remove {K : Type} (cK : Codec K) (t : RawTable) (k : K) :
    Option AccessGuard × RawTable :=
  ((rawRemove t (cK.encode k)).1.map AccessGuard.mk,
   (rawRemove t (cK.encode k)).2)

/-- Decode one raw entry as a typed pair, key first then value, failing if
either component fails — the decode pattern of both the `extract_if`
closure (lib.rs 320-322) and the result mapping (lib.rs 328-341). -/
def decEntry {K V : Type} (cK : Codec K) (cV : Codec V) (e : Bytes × Bytes) :
    Option (K × V) :=
  match cK.decode e.1 with
  | some (k, _) =>
    match cV.decode e.2 with
    | some (v, _) => some (k, v)
    | none => none
  | none => none

/-- `Table::remove_where` (lib.rs 307-346): run the engine's `extract_if`
with a closure that decodes key and value with `unwrap` (a decode failure
there panics, embedded as `none`) and applies the caller's predicate;
then re-decode every extracted entry, mapping it to `some (k, v)` when
both components decode and to `none` otherwise. -/
def Table.remove_where {K V : Type} (cK : Codec K) (cV : Codec V)
    (p : K → V → Bool) (t : RawTable) :
    Option (List (Option (K × V)) × RawTable) :=
  (extractIf (fun kb vb =>
      match cK.decode kb with
      | some (k, _) =>
        match cV.decode vb with
        | some (v, _) => some (p k v)
        | none => none
      | none => none) t).map
    (fun pr => (pr.1.map (fun e => decEntry cK cV e), pr.2))

/-- The `i < start` skip test of the `get_many` loops (lib.rs 131-136,
177-182); `none` means no skipping. -/
def beforeStart (s? : Option Nat) (i : Nat) : Bool :=
  match s? with
  | some s => i < s
  | none => false

/-- The `i >= end` break test of the `get_many` loops (lib.rs 138-142,
184-188); `none` means unbounded. -/
def atEnd (e? : Option Nat) (i : Nat) : Bool :=
  match e? with
  | some e => e ≤ i
  | none => false

/-- The loop of `ReadOnlyTable::get_many` (lib.rs 126-160), with `i` the
running ordinal position: entries with `i < start` are skipped (their
bytes are never decoded), the loop breaks at `i >= end`, and every
surviving entry is decoded, a decode failure aborting the whole call with
an `InvalidData` I/O error. -/
def get_many_aux {K V : Type} (cK : Codec K) (cV : Codec V) (s? e? : Option Nat) :
    RawTable → Nat → Except RedbErr (List (K × V))
  | [], _ => .ok []
  | (kb, vb) :: rest, i =>
    if beforeStart s? i then get_many_aux cK cV s? e? rest (i + 1)
    else if atEnd e? i then .ok []
    else
      match cK.decode kb with
      | none => .error .ioInvalidData
      | some (k, _) =>
        match cV.decode vb with
        | none => .error .ioInvalidData
        | some (v, _) =>
          (get_many_aux cK cV s? e? rest (i + 1)).map (fun l => (k, v) :: l)

/-- `ReadOnlyTable::get_many` (lib.rs 121-161). -/
def ReadOnlyTable.get_many {K V : Type} (cK : Codec K) (cV : Codec V)
    (t : RawTable) (s? e? : Option Nat) : Except RedbErr (List (K × V)) :=
  get_many_aux cK cV s? e? t 0

/-- The loop of `ReadOnlyTable::get_many_where` (lib.rs 172-209): same
positional windowing and decoding as `get_many`, plus the caller's
predicate deciding whether a decoded pair is pushed. -/
def get_many_where_aux {K V : Type} (cK : Codec K) (cV : Codec V)
    (s? e? : Option Nat) (p : K → V → Bool) :
    RawTable → Nat → Except RedbErr (List (K × V))
  | [], _ => .ok []
  | (kb, vb) :: rest, i =>
    if beforeStart s? i then get_many_where_aux cK cV s? e? p rest (i + 1)
    else if atEnd e? i then .ok []
    else
      match cK.decode kb with
      | none => .error .ioInvalidData
      | some (k, _) =>
        match cV.decode vb with
        | none => .error .ioInvalidData
        | some (v, _) =>
          if p k v then
            (get_many_where_aux cK cV s? e? p rest (i + 1)).map (fun l => (k, v) :: l)
          else get_many_where_aux cK cV s? e? p rest (i + 1)

/-- `ReadOnlyTable::get_many_where` (lib.rs 163-210). -/
def ReadOnlyTable.get_many_where {K V : Type} (cK : Codec K) (cV : Codec V)
    (t : RawTable) (s? e? : Option Nat) (p : K → V → Bool) :
    Except RedbErr (List (K × V)) :=
  get_many_where_aux cK cV s? e? p t 0

/-- `Readable::get` for the blanket impl (traits.rs 36-50): point lookup,
then `map(value).transpose().map_err(NotFound "not found")` — a decode
failure of a present value is replaced by an I/O `NotFound` error.  The
transaction plumbing is pure here. -/
def Readable.get {K V : Type} (cK : Codec K) (cV : Codec V) (t : RawTable)
    (k : K) : Except RedbErr (Option V) :=
  match Table.get cK t k with
  | none => .ok none
  | some g =>
    match AccessGuard.value cV g with
    | some v => .ok (some v)
    | none => .error (.ioNotFound "not found")

/-- `Writeable::extract` for the blanket impl (traits.rs 120-138): remove
inside a write transaction, decode the removed value with the same
`NotFound` replacement; the `?` fires before `txn.commit()`, so on a
decode failure the transaction is dropped and the removal is rolled back
(the table component stays the input table). -/
def Writeable.extract {K V : Type} (cK : Codec K) (cV : Codec V) (t : RawTable)
    (k : K) : Except RedbErr (Option V) × RawTable :=
  match Table.remove cK t k with
  | (none, t1) => (.ok none, t1)
  | (some g, t1) =>
    match AccessGuard.value cV g with
    | some v => (.ok (some v), t1)
    | none => (.error (.ioNotFound "not found"), t)

/-- The committed contents of the storage file: the engine's named raw
tables. -/
structure DbState where
  tables : List (String × RawTable)
deriving DecidableEq, Repr

/-- `Database` (database.rs 9): the process-wide handle to one store. -/
structure Database where
  state : DbState
deriving DecidableEq, Repr

/-- `Database::new` (database.rs 14-20): the engine's `create` result —
produced by the external engine and therefore an input here — is
`unwrap`ped: a storage error panics (`none`) instead of being returned. -/
def Database.new (createResult : Except StorageErr DbState) : Option Database :=
  match createResult with
  | .ok st => some ⟨st⟩
  | .error _ => none

/-- `ReadTransaction::list_tables` / `Database::table_iterator`: the names
of the tables in the committed state. -/
def Database.list_tables (db : Database) : List String :=
  db.state.tables.map Prod.fst

/-- `WriteTransaction` (tx.rs 43-82): holds the transaction's own view of
the store; only `commit` publishes it. -/
structure WriteTransaction where
  state : DbState

/-- `Database::begin_write` (database.rs 52-54): snapshot the committed
state into a fresh write transaction. -/
def Database.begin_write (db : Database) : WriteTransaction :=
  ⟨db.state⟩

/-- `WriteTransaction::delete_table` (tx.rs 71-77): delete the named raw
table inside the transaction's view, answering whether it existed there. -/
def WriteTransaction.delete_table (txn : WriteTransaction) (name : String) :
    Bool × WriteTransaction :=
  (txn.state.tables.any (fun e => e.1 == name),
   ⟨⟨txn.state.tables.filter (fun e => !(e.1 == name))⟩⟩)

/-- `WriteTransaction::commit` (tx.rs 79-81): publish the transaction's
view as the new committed state. -/
def WriteTransaction.commit (txn : WriteTransaction) : DbState :=
  txn.state

/-- `Database::delete_table` (database.rs 37-44): scan the table names of
a read snapshot; on a match, begin a write transaction, delete the table
through `as_raw()` and return the engine's boolean — the transaction is
dropped at the end of the statement without `commit`, so the committed
state is unchanged. -/
def Database.delete_table (db : Database) (name : String) : Bool × Database :=
  match db.state.tables.find? (fun e => e.1 == name) with
  | some _ => (((Database.begin_write db).delete_table name).1, db)
  | none => (false, db)

/-- A concrete deterministic codec used for concrete evaluations: a `Nat`
is one byte; the empty byte string is undecodable. -/
def natCodec : Codec Nat where
  encode n := [n]
  decode b :=
    match b with
    | [] => none
    | x :: _ => some (x, 1)

/-! ## Helper lemmas about the engine model -/

/-- After an upsert, a lookup with the same key finds the new value. -/
theorem rawGet_rawInsert (t : RawTable) (k v : Bytes) :
    rawGet (rawInsert t k v).2 k = some v := by
  induction t with
  | nil => simp [rawInsert, rawGet]
  | cons hd tl ih =>
    obtain ⟨k1, v1⟩ := hd
    by_cases hk : k = k1
    · simp [rawInsert, hk, rawGet]
    · by_cases hlt : ltBytes k k1
      · simp [rawInsert, hk, hlt, rawGet]
      · simp [rawInsert, hk, hlt, rawGet, ih]

/-- Upserting twice with the same key reports the first upsert's value as
the previous value. -/
theorem rawInsert_rawInsert (t : RawTable) (k v1 v2 : Bytes) :
    (rawInsert (rawInsert t k v1).2 k v2).1 = some v1 := by
  induction t with
  | nil => simp [rawInsert]
  | cons hd tl ih =>
    obtain ⟨k1, w⟩ := hd
    by_cases hk : k = k1
    · simp [rawInsert, hk]
    · by_cases hlt : ltBytes k k1
      · simp [rawInsert, hk, hlt]
      · simp [rawInsert, hk, hlt, ih]

/-- A raw delete reports the same previous value a lookup would find. -/
theorem rawRemove_fst (t : RawTable) (k : Bytes) :
    (rawRemove t k).1 = rawGet t k := by
  induction t with
  | nil => simp [rawRemove, rawGet]
  | cons hd tl ih =>
    obtain ⟨k1, v1⟩ := hd
    by_cases hk : k = k1
    · simp [rawRemove, rawGet, hk]
    · simp [rawRemove, rawGet, hk, ih]

/-! ## C1: insert followed by get round-trips the value -/

/-- Claim C1 (confirmed).  For every key `k` and value `v` whose codec
round-trips `v`, on a typed table `insert(k, v)` followed by `get(k)`
returns a present access guard whose `value()` yields exactly `v`. -/
theorem insert_get_value_roundtrip {K V : Type} (cK : Codec K) (cV : Codec V)
    (t : RawTable) (k : K) (v : V) (n : Nat)
    (hv : cV.decode (cV.encode v) = some (v, n)) :
    ∃ g : AccessGuard, Table.get cK (Table.insert cK cV t k v).2 k = some g ∧
      AccessGuard.value cV g = some v := by
  refine ⟨⟨cV.encode v⟩, ?_, ?_⟩
  · simp [Table.get, Table.insert, rawGet_rawInsert]
  · simp [AccessGuard.value, hv]

/-- Concrete discharge of C1's codec hypothesis. -/
theorem insert_get_value_roundtrip_witness :
    natCodec.decode (natCodec.encode 2) = some (2, 1) ∧
    ∃ g : AccessGuard,
      Table.get natCodec (Table.insert natCodec natCodec [] 1 2).2 1 = some g ∧
        AccessGuard.value natCodec g = some 2 :=
  ⟨rfl, insert_get_value_roundtrip natCodec natCodec [] 1 2 1 rfl⟩

/-! ## C9: overwrite returns the previous value over the old raw bytes -/

/-- Claim C9 (confirmed).  `insert(k, v1)` then `insert(k, v2)` returns
`v1` as the previous value, as an access guard over the old raw bytes
(the encoding of `v1`) whose `value()` yields `v1`, and a subsequent
`get(k)` in the same transaction yields `v2`. -/
theorem insert_overwrite {K V : Type} (cK : Codec K) (cV : Codec V)
    (t : RawTable) (k : K) (v1 v2 : V) (n1 n2 : Nat)
    (h1 : cV.decode (cV.encode v1) = some (v1, n1))
    (h2 : cV.decode (cV.encode v2) = some (v2, n2)) :
    (Table.insert cK cV (Table.insert cK cV t k v1).2 k v2).1 =
      some ⟨cV.encode v1⟩ ∧
    AccessGuard.value cV (⟨cV.encode v1⟩ : AccessGuard) = some v1 ∧
    ∃ g : AccessGuard,
      Table.get cK (Table.insert cK cV (Table.insert cK cV t k v1).2 k v2).2 k =
        some g ∧ AccessGuard.value cV g = some v2 := by
  refine ⟨?_, ?_, ⟨cV.encode v2⟩, ?_, ?_⟩
  · simp [Table.insert, rawInsert_rawInsert]
  · simp [AccessGuard.value, h1]
  · simp [Table.get, Table.insert, rawGet_rawInsert]
  · simp [AccessGuard.value, h2]

/-- Concrete discharge of C9's codec hypotheses. -/
theorem insert_overwrite_witness :
    natCodec.decode (natCodec.encode 7) = some (7, 1) ∧
    natCodec.decode (natCodec.encode 8) = some (8, 1) ∧
    ((Table.insert natCodec natCodec
        (Table.insert natCodec natCodec [] 3 7).2 3 8).1 =
      some ⟨natCodec.encode 7⟩ ∧
    AccessGuard.value natCodec (⟨natCodec.encode 7⟩ : AccessGuard) = some 7 ∧
    ∃ g : AccessGuard,
      Table.get natCodec (Table.insert natCodec natCodec
          (Table.insert natCodec natCodec [] 3 7).2 3 8).2 3 =
        some g ∧ AccessGuard.value natCodec g = some 8) :=
  ⟨rfl, rfl, insert_overwrite natCodec natCodec [] 3 7 8 1 1 rfl rfl⟩

/-! ## Helper lemmas about the `get_many` loops -/

/-- Once the cursor has passed `start`, it stays past it. -/
theorem beforeStart_succ {s? : Option Nat} {i : Nat}
    (h : beforeStart s? i = false) : beforeStart s? (i + 1) = false := by
  cases s? with
  | none => rfl
  | some s => simp [beforeStart] at h ⊢; omega

/-- The `get_many` loop skips the first `start` entries without touching
them: any prefix of length at most `start - i` is dropped unexamined. -/
theorem get_many_aux_skip {K V : Type} (cK : Codec K) (cV : Codec V) (s : Nat)
    (e? : Option Nat) (t1 t2 : RawTable) :
    ∀ i : Nat, i + t1.length ≤ s →
      get_many_aux cK cV (some s) e? (t1 ++ t2) i =
        get_many_aux cK cV (some s) e? t2 (i + t1.length) := by
  induction t1 with
  | nil => intro i _; simp
  | cons hd tl ih =>
    intro i hle
    obtain ⟨kb, vb⟩ := hd
    have hbs : beforeStart (some s) i = true := by
      simp only [List.length_cons] at hle
      simp [beforeStart]; omega
    simp only [List.cons_append, get_many_aux, hbs, if_true]
    rw [show tl.append t2 = tl ++ t2 from rfl,
      ih (i + 1) (by simp only [List.length_cons] at hle; omega)]
    have harith : i + 1 + tl.length = i + ((kb, vb) :: tl).length := by
      simp; omega
    rw [harith]

/-- Same skipping behavior for the `get_many_where` loop. -/
theorem get_many_where_aux_skip {K V : Type} (cK : Codec K) (cV : Codec V)
    (s : Nat) (e? : Option Nat) (p : K → V → Bool) (t1 t2 : RawTable) :
    ∀ i : Nat, i + t1.length ≤ s →
      get_many_where_aux cK cV (some s) e? p (t1 ++ t2) i =
        get_many_where_aux cK cV (some s) e? p t2 (i + t1.length) := by
  induction t1 with
  | nil => intro i _; simp
  | cons hd tl ih =>
    intro i hle
    obtain ⟨kb, vb⟩ := hd
    have hbs : beforeStart (some s) i = true := by
      simp only [List.length_cons] at hle
      simp [beforeStart]; omega
    simp only [List.cons_append, get_many_where_aux, hbs, if_true]
    rw [show tl.append t2 = tl ++ t2 from rfl,
      ih (i + 1) (by simp only [List.length_cons] at hle; omega)]
    have harith : i + 1 + tl.length = i + ((kb, vb) :: tl).length := by
      simp; omega
    rw [harith]

/-- With no `end` bound and the cursor past `start`, the loop decodes the
whole remaining table and succeeds when every entry decodes. -/
theorem get_many_aux_none_ok {K V : Type} (cK : Codec K) (cV : Codec V)
    (s? : Option Nat) (t : RawTable) :
    ∀ i : Nat, beforeStart s? i = false →
      (∀ x ∈ t, (decEntry cK cV x).isSome = true) →
      get_many_aux cK cV s? none t i =
        .ok (t.filterMap (fun x => decEntry cK cV x)) := by
  induction t with
  | nil => intro i _ _; simp [get_many_aux]
  | cons hd tl ih =>
    intro i hbs h
    obtain ⟨kb, vb⟩ := hd
    have h0 := h (kb, vb) (by simp)
    cases hk : cK.decode kb with
    | none => simp [decEntry, hk] at h0
    | some kn =>
      obtain ⟨k, nk⟩ := kn
      cases hv : cV.decode vb with
      | none => simp [decEntry, hk, hv] at h0
      | some vn =>
        obtain ⟨v, nv⟩ := vn
        have hde : decEntry cK cV (kb, vb) = some (k, v) := by
          simp [decEntry, hk, hv]
        simp only [get_many_aux, hbs, Bool.false_eq_true, if_false, atEnd, hk, hv]
        rw [ih (i + 1) (beforeStart_succ hbs) (fun x hx => h x (by simp [hx]))]
        simp [List.filterMap_cons, hde, Except.map]

/-- With an `end` bound and the cursor past `start`, the loop decodes the
next `end - i` entries and succeeds when each of them decodes. -/
theorem get_many_aux_some_ok {K V : Type} (cK : Codec K) (cV : Codec V)
    (s? : Option Nat) (e : Nat) (t : RawTable) :
    ∀ i : Nat, beforeStart s? i = false →
      (∀ x ∈ t.take (e - i), (decEntry cK cV x).isSome = true) →
      get_many_aux cK cV s? (some e) t i =
        .ok ((t.take (e - i)).filterMap (fun x => decEntry cK cV x)) := by
  induction t with
  | nil => intro i _ _; simp [get_many_aux]
  | cons hd tl ih =>
    intro i hbs h
    obtain ⟨kb, vb⟩ := hd
    by_cases hei : e ≤ i
    · have he0 : e - i = 0 := by omega
      have hae : atEnd (some e) i = true := by simp [atEnd]; omega
      simp [get_many_aux, hbs, hae, he0]
    · have hti : e - i = (e - (i + 1)) + 1 := by omega
      have hae : atEnd (some e) i = false := by simp [atEnd]; omega
      have h0 := h (kb, vb) (by rw [hti]; simp)
      cases hk : cK.decode kb with
      | none => simp [decEntry, hk] at h0
      | some kn =>
        obtain ⟨k, nk⟩ := kn
        cases hv : cV.decode vb with
        | none => simp [decEntry, hk, hv] at h0
        | some vn =>
          obtain ⟨v, nv⟩ := vn
          have hde : decEntry cK cV (kb, vb) = some (k, v) := by
            simp [decEntry, hk, hv]
          simp only [get_many_aux, hbs, Bool.false_eq_true, if_false, hae, hk, hv]
          rw [ih (i + 1) (beforeStart_succ hbs)
            (fun x hx => h x (by rw [hti]; simp [hx]))]
          rw [hti, List.take_succ_cons]
          simp [List.filterMap_cons, hde, Except.map]

/-- A `filterMap` by a function that succeeds on every element keeps the
length. -/
theorem length_filterMap_of_total {α β : Type} (f : α → Option β)
    (l : List α) (h : ∀ a ∈ l, (f a).isSome = true) :
    (l.filterMap f).length = l.length := by
  induction l with
  | nil => rfl
  | cons a l ih =>
    have ha := h a (by simp)
    cases hfa : f a with
    | none => rw [hfa] at ha; simp at ha
    | some b =>
      simp [List.filterMap_cons, hfa, ih (fun x hx => h x (by simp [hx]))]

/-- With no `end` bound, an undecodable entry in the remaining table
aborts the loop with the `InvalidData` error. -/
theorem get_many_aux_none_err {K V : Type} (cK : Codec K) (cV : Codec V)
    (s? : Option Nat) (t : RawTable) :
    ∀ i : Nat, beforeStart s? i = false →
      (∃ x ∈ t, decEntry cK cV x = none) →
      get_many_aux cK cV s? none t i = .error .ioInvalidData := by
  induction t with
  | nil => intro i _ h; simp at h
  | cons hd tl ih =>
    intro i hbs h
    obtain ⟨kb, vb⟩ := hd
    cases hk : cK.decode kb with
    | none => simp [get_many_aux, hbs, atEnd, hk]
    | some kn =>
      obtain ⟨k, nk⟩ := kn
      cases hv : cV.decode vb with
      | none => simp [get_many_aux, hbs, atEnd, hk, hv]
      | some vn =>
        obtain ⟨v, nv⟩ := vn
        have htl : ∃ x ∈ tl, decEntry cK cV x = none := by
          obtain ⟨x, hx, hxn⟩ := h
          rcases List.mem_cons.mp hx with hx0 | hx1
          · subst hx0; simp [decEntry, hk, hv] at hxn
          · exact ⟨x, hx1, hxn⟩
        simp only [get_many_aux, hbs, Bool.false_eq_true, if_false, atEnd,
          hk, hv]
        rw [ih (i + 1) (beforeStart_succ hbs) htl]
        rfl

/-- With an `end` bound, an undecodable entry among the next `end - i`
entries aborts the loop with the `InvalidData` error. -/
theorem get_many_aux_some_err {K V : Type} (cK : Codec K) (cV : Codec V)
    (s? : Option Nat) (e : Nat) (t : RawTable) :
    ∀ i : Nat, beforeStart s? i = false →
      (∃ x ∈ t.take (e - i), decEntry cK cV x = none) →
      get_many_aux cK cV s? (some e) t i = .error .ioInvalidData := by
  induction t with
  | nil => intro i _ h; simp at h
  | cons hd tl ih =>
    intro i hbs h
    obtain ⟨kb, vb⟩ := hd
    by_cases hei : e ≤ i
    · have he0 : e - i = 0 := by omega
      rw [he0] at h
      simp at h
    · have hti : e - i = (e - (i + 1)) + 1 := by omega
      have hae : atEnd (some e) i = false := by simp [atEnd]; omega
      rw [hti, List.take_succ_cons] at h
      cases hk : cK.decode kb with
      | none => simp [get_many_aux, hbs, hae, hk]
      | some kn =>
        obtain ⟨k, nk⟩ := kn
        cases hv : cV.decode vb with
        | none => simp [get_many_aux, hbs, hae, hk, hv]
        | some vn =>
          obtain ⟨v, nv⟩ := vn
          have htl : ∃ x ∈ tl.take (e - (i + 1)), decEntry cK cV x = none := by
            obtain ⟨x, hx, hxn⟩ := h
            rcases List.mem_cons.mp hx with hx0 | hx1
            · subst hx0; simp [decEntry, hk, hv] at hxn
            · exact ⟨x, hx1, hxn⟩
          simp only [get_many_aux, hbs, Bool.false_eq_true, if_false, hae,
            hk, hv]
          rw [ih (i + 1) (beforeStart_succ hbs) htl]
          rfl

/-- With no `end` bound, an undecodable entry aborts the `get_many_where`
loop with the `InvalidData` error. -/
theorem get_many_where_aux_none_err {K V : Type} (cK : Codec K) (cV : Codec V)
    (s? : Option Nat) (p : K → V → Bool) (t : RawTable) :
    ∀ i : Nat, beforeStart s? i = false →
      (∃ x ∈ t, decEntry cK cV x = none) →
      get_many_where_aux cK cV s? none p t i = .error .ioInvalidData := by
  induction t with
  | nil => intro i _ h; simp at h
  | cons hd tl ih =>
    intro i hbs h
    obtain ⟨kb, vb⟩ := hd
    cases hk : cK.decode kb with
    | none => simp [get_many_where_aux, hbs, atEnd, hk]
    | some kn =>
      obtain ⟨k, nk⟩ := kn
      cases hv : cV.decode vb with
      | none => simp [get_many_where_aux, hbs, atEnd, hk, hv]
      | some vn =>
        obtain ⟨v, nv⟩ := vn
        have htl : ∃ x ∈ tl, decEntry cK cV x = none := by
          obtain ⟨x, hx, hxn⟩ := h
          rcases List.mem_cons.mp hx with hx0 | hx1
          · subst hx0; simp [decEntry, hk, hv] at hxn
          · exact ⟨x, hx1, hxn⟩
        simp only [get_many_where_aux, hbs, Bool.false_eq_true, if_false,
          atEnd, hk, hv]
        rw [ih (i + 1) (beforeStart_succ hbs) htl]
        by_cases hp : p k v <;> simp [hp, Except.map]

/-- With an `end` bound, an undecodable entry inside the window aborts
the `get_many_where` loop with the `InvalidData` error. -/
theorem get_many_where_aux_some_err {K V : Type} (cK : Codec K) (cV : Codec V)
    (s? : Option Nat) (e : Nat) (p : K → V → Bool) (t : RawTable) :
    ∀ i : Nat, beforeStart s? i = false →
      (∃ x ∈ t.take (e - i), decEntry cK cV x = none) →
      get_many_where_aux cK cV s? (some e) p t i = .error .ioInvalidData := by
  induction t with
  | nil => intro i _ h; simp at h
  | cons hd tl ih =>
    intro i hbs h
    obtain ⟨kb, vb⟩ := hd
    by_cases hei : e ≤ i
    · have he0 : e - i = 0 := by omega
      rw [he0] at h
      simp at h
    · have hti : e - i = (e - (i + 1)) + 1 := by omega
      have hae : atEnd (some e) i = false := by simp [atEnd]; omega
      rw [hti, List.take_succ_cons] at h
      cases hk : cK.decode kb with
      | none => simp [get_many_where_aux, hbs, hae, hk]
      | some kn =>
        obtain ⟨k, nk⟩ := kn
        cases hv : cV.decode vb with
        | none => simp [get_many_where_aux, hbs, hae, hk, hv]
        | some vn =>
          obtain ⟨v, nv⟩ := vn
          have htl : ∃ x ∈ tl.take (e - (i + 1)), decEntry cK cV x = none := by
            obtain ⟨x, hx, hxn⟩ := h
            rcases List.mem_cons.mp hx with hx0 | hx1
            · subst hx0; simp [decEntry, hk, hv] at hxn
            · exact ⟨x, hx1, hxn⟩
          simp only [get_many_where_aux, hbs, Bool.false_eq_true, if_false,
            hae, hk, hv]
          rw [ih (i + 1) (beforeStart_succ hbs) htl]
          by_cases hp : p k v <;> simp [hp, Except.map]

/-! ## C4: positional windowing of `get_many` -/

/-- Claim C4 (confirmed).  For a table of size `size`, `get_many(start,
end)` returns exactly `min(end, size) - start` entries (Nat subtraction
clamps at 0), namely the decoded entries at ordinal positions
`[start, end)` of full-table iteration order (`start` defaulting to 0 and
`end` to `size`), provided the entries in that window decode; in
particular on an empty table `get_many(none, none)` returns the empty
sequence. -/
theorem get_many_positional {K V : Type} (cK : Codec K) (cV : Codec V)
    (t : RawTable) (s? e? : Option Nat)
    (h : ((t.drop (s?.getD 0)).take (e?.getD t.length - s?.getD 0)).all
        (fun x => (decEntry cK cV x).isSome) = true) :
    ReadOnlyTable.get_many cK cV t s? e? =
      .ok (((t.drop (s?.getD 0)).take (e?.getD t.length - s?.getD 0)).filterMap
        (fun x => decEntry cK cV x)) ∧
    (((t.drop (s?.getD 0)).take (e?.getD t.length - s?.getD 0)).filterMap
        (fun x => decEntry cK cV x)).length =
      min (e?.getD t.length) t.length - s?.getD 0 := by
  rw [List.all_eq_true] at h
  constructor
  · show get_many_aux cK cV s? e? t 0 = _
    cases s? with
    | none =>
      cases e? with
      | none =>
        simp only [Option.getD_none, List.drop_zero, Nat.sub_zero,
          List.take_length] at h ⊢
        exact get_many_aux_none_ok cK cV none t 0 rfl h
      | some e =>
        simp only [Option.getD_none, Option.getD_some, List.drop_zero,
          Nat.sub_zero] at h ⊢
        exact get_many_aux_some_ok cK cV none e t 0 rfl h
    | some s =>
      simp only [Option.getD_some] at h ⊢
      have hlen : (0 : Nat) + (t.take s).length ≤ s := by
        simp [List.length_take]
      have hskip := get_many_aux_skip cK cV s e? (t.take s) (t.drop s) 0 hlen
      rw [List.take_append_drop] at hskip
      rw [hskip]
      by_cases hst : s ≤ t.length
      · have hmin : (0 : Nat) + (t.take s).length = s := by
          simp [List.length_take]; omega
        rw [hmin]
        have hbs : beforeStart (some s) s = false := by simp [beforeStart]
        cases e? with
        | none =>
          simp only [Option.getD_none] at h ⊢
          have hw : (t.drop s).take (t.length - s) = t.drop s := by
            rw [← List.length_drop]
            exact List.take_length _
          rw [hw] at h ⊢
          exact get_many_aux_none_ok cK cV (some s) (t.drop s) s hbs h
        | some e =>
          simp only [Option.getD_some] at h ⊢
          exact get_many_aux_some_ok cK cV (some s) e (t.drop s) s hbs h
      · have hd : t.drop s = [] := List.drop_eq_nil_of_le (by omega)
        rw [hd]
        cases e? <;> simp [get_many_aux]
  · rw [length_filterMap_of_total _ _ h]
    simp only [List.length_take, List.length_drop]
    cases s? with
    | none =>
      cases e? with
      | none => simp
      | some e => simp only [Option.getD_none, Option.getD_some]; omega
    | some s =>
      cases e? with
      | none => simp only [Option.getD_none, Option.getD_some]; omega
      | some e => simp only [Option.getD_some]; omega

/-- Concrete discharge of C4: a three-entry table windowed to positions
`[1, 3)`, and the empty-table scenario. -/
theorem get_many_positional_witness :
    ((([([1], [10]), ([2], [20]), ([3], [30])] : RawTable).drop 1).take 2).all
        (fun x => (decEntry natCodec natCodec x).isSome) = true ∧
    ReadOnlyTable.get_many natCodec natCodec
        [([1], [10]), ([2], [20]), ([3], [30])] (some 1) (some 3) =
      .ok [(2, 20), (3, 30)] ∧
    ReadOnlyTable.get_many (K := Nat) (V := Nat) natCodec natCodec []
        none none = .ok [] := by
  refine ⟨by decide, ?_, ?_⟩
  · exact ((get_many_positional natCodec natCodec
      [([1], [10]), ([2], [20]), ([3], [30])] (some 1) (some 3)
      (by decide)).1).trans rfl
  · exact ((get_many_positional natCodec natCodec [] none none
      (by decide)).1).trans rfl

/-! ## C5: what the loops decode before `start` -/

/-- Claim C5, counterexample.  The claim predicts that a table whose entry
at ordinal position 0 is undecodable makes `get_many(some 1, none)` fail
with a decode error; the code instead skips the entry without decoding it
(the `continue` at lib.rs 131-136 runs before the decode) and succeeds. -/
theorem get_many_counterexample_skips_bad_prefix :
    natCodec.decode ([] : Bytes) = none ∧
    ReadOnlyTable.get_many natCodec natCodec [([], [0]), ([1], [2])]
        (some 1) none = .ok [(1, 2)] :=
  ⟨rfl, rfl⟩

/-- Claim C5 (corrected).  Amended: entries at ordinal positions strictly
before `start` are skipped without being decoded, in both `get_many` and
`get_many_where`; the result depends only on the entries from position
`start` on, so replacing the first `start` entries by arbitrary (even
undecodable) ones does not change the outcome.  Only entries from the
cursor positions inside `[start, end)` are decoded. -/
theorem get_many_ignores_entries_before_start {K V : Type}
    (cK : Codec K) (cV : Codec V) (p : K → V → Bool)
    (t1 t1' t2 : RawTable) (s : Nat) (e? : Option Nat)
    (h1 : t1.length = s) (h1' : t1'.length = s) :
    ReadOnlyTable.get_many cK cV (t1 ++ t2) (some s) e? =
      ReadOnlyTable.get_many cK cV (t1' ++ t2) (some s) e? ∧
    ReadOnlyTable.get_many_where cK cV (t1 ++ t2) (some s) e? p =
      ReadOnlyTable.get_many_where cK cV (t1' ++ t2) (some s) e? p := by
  constructor
  · show get_many_aux cK cV (some s) e? (t1 ++ t2) 0 =
      get_many_aux cK cV (some s) e? (t1' ++ t2) 0
    rw [get_many_aux_skip cK cV s e? t1 t2 0 (by omega),
      get_many_aux_skip cK cV s e? t1' t2 0 (by omega), h1, h1']
  · show get_many_where_aux cK cV (some s) e? p (t1 ++ t2) 0 =
      get_many_where_aux cK cV (some s) e? p (t1' ++ t2) 0
    rw [get_many_where_aux_skip cK cV s e? p t1 t2 0 (by omega),
      get_many_where_aux_skip cK cV s e? p t1' t2 0 (by omega), h1, h1']

/-- Concrete discharge of C5's amended statement: an undecodable entry
before `start` is interchangeable with a decodable one. -/
theorem get_many_ignores_entries_before_start_witness :
    ([(([] : Bytes), ([0] : Bytes))] : RawTable).length = 1 ∧
    ([(([9] : Bytes), ([9] : Bytes))] : RawTable).length = 1 ∧
    (ReadOnlyTable.get_many natCodec natCodec
        ([(([] : Bytes), ([0] : Bytes))] ++ [([1], [2])]) (some 1) none =
      ReadOnlyTable.get_many natCodec natCodec
        ([(([9] : Bytes), ([9] : Bytes))] ++ [([1], [2])]) (some 1) none ∧
    ReadOnlyTable.get_many_where natCodec natCodec
        ([(([] : Bytes), ([0] : Bytes))] ++ [([1], [2])]) (some 1) none
        (fun _ _ => true) =
      ReadOnlyTable.get_many_where natCodec natCodec
        ([(([9] : Bytes), ([9] : Bytes))] ++ [([1], [2])]) (some 1) none
        (fun _ _ => true)) :=
  ⟨rfl, rfl, get_many_ignores_entries_before_start natCodec natCodec
    (fun _ _ => true) [([], [0])] [([9], [9])] [([1], [2])] 1 none rfl rfl⟩

/-! ## C6: decode failures inside the window abort the whole call -/

/-- Claim C6 (confirmed).  If some entry visited within the iteration
window `[start, end)` fails to decode, `get_many` and `get_many_where`
return an error for the whole call (so no partial results: the `Except`
carries no list on the error path). -/
theorem get_many_decode_failure_aborts {K V : Type}
    (cK : Codec K) (cV : Codec V) (p : K → V → Bool)
    (t : RawTable) (s? e? : Option Nat)
    (h : ((t.drop (s?.getD 0)).take (e?.getD t.length - s?.getD 0)).any
        (fun x => (decEntry cK cV x).isNone) = true) :
    ReadOnlyTable.get_many cK cV t s? e? = .error .ioInvalidData ∧
    ReadOnlyTable.get_many_where cK cV t s? e? p = .error .ioInvalidData := by
  rw [List.any_eq_true] at h
  obtain ⟨x, hx, hxn⟩ := h
  rw [Option.isNone_iff_eq_none] at hxn
  have hex : ∃ y ∈ (t.drop (s?.getD 0)).take (e?.getD t.length - s?.getD 0),
      decEntry cK cV y = none := ⟨x, hx, hxn⟩
  constructor
  · show get_many_aux cK cV s? e? t 0 = _
    cases s? with
    | none =>
      cases e? with
      | none =>
        simp only [Option.getD_none, List.drop_zero, Nat.sub_zero,
          List.take_length] at hex
        exact get_many_aux_none_err cK cV none t 0 rfl hex
      | some e =>
        simp only [Option.getD_none, Option.getD_some, List.drop_zero,
          Nat.sub_zero] at hex
        exact get_many_aux_some_err cK cV none e t 0 rfl hex
    | some s =>
      simp only [Option.getD_some] at hex
      have hlen : (0 : Nat) + (t.take s).length ≤ s := by
        simp [List.length_take]
      have hskip := get_many_aux_skip cK cV s e? (t.take s) (t.drop s) 0 hlen
      rw [List.take_append_drop] at hskip
      rw [hskip]
      by_cases hst : s ≤ t.length
      · have hmin : (0 : Nat) + (t.take s).length = s := by
          simp [List.length_take]; omega
        rw [hmin]
        have hbs : beforeStart (some s) s = false := by simp [beforeStart]
        cases e? with
        | none =>
          simp only [Option.getD_none] at hex
          have hw : (t.drop s).take (t.length - s) = t.drop s := by
            rw [← List.length_drop]
            exact List.take_length _
          rw [hw] at hex
          exact get_many_aux_none_err cK cV (some s) (t.drop s) s hbs hex
        | some e =>
          simp only [Option.getD_some] at hex
          exact get_many_aux_some_err cK cV (some s) e (t.drop s) s hbs hex
      · have hd : t.drop s = [] := List.drop_eq_nil_of_le (by omega)
        rw [hd] at hex
        simp at hex
  · show get_many_where_aux cK cV s? e? p t 0 = _
    cases s? with
    | none =>
      cases e? with
      | none =>
        simp only [Option.getD_none, List.drop_zero, Nat.sub_zero,
          List.take_length] at hex
        exact get_many_where_aux_none_err cK cV none p t 0 rfl hex
      | some e =>
        simp only [Option.getD_none, Option.getD_some, List.drop_zero,
          Nat.sub_zero] at hex
        exact get_many_where_aux_some_err cK cV none e p t 0 rfl hex
    | some s =>
      simp only [Option.getD_some] at hex
      have hlen : (0 : Nat) + (t.take s).length ≤ s := by
        simp [List.length_take]
      have hskip := get_many_where_aux_skip cK cV s e? p (t.take s)
        (t.drop s) 0 hlen
      rw [List.take_append_drop] at hskip
      rw [hskip]
      by_cases hst : s ≤ t.length
      · have hmin : (0 : Nat) + (t.take s).length = s := by
          simp [List.length_take]; omega
        rw [hmin]
        have hbs : beforeStart (some s) s = false := by simp [beforeStart]
        cases e? with
        | none =>
          simp only [Option.getD_none] at hex
          have hw : (t.drop s).take (t.length - s) = t.drop s := by
            rw [← List.length_drop]
            exact List.take_length _
          rw [hw] at hex
          exact get_many_where_aux_none_err cK cV (some s) p (t.drop s) s hbs hex
        | some e =>
          simp only [Option.getD_some] at hex
          exact get_many_where_aux_some_err cK cV (some s) e p (t.drop s) s hbs hex
      · have hd : t.drop s = [] := List.drop_eq_nil_of_le (by omega)
        rw [hd] at hex
        simp at hex

/-- Concrete discharge of C6: a decodable entry followed by an
undecodable one inside the window aborts both calls with the
`InvalidData` error. -/
theorem get_many_decode_failure_aborts_witness :
    ((([([1], [2]), ([3], [])] : RawTable).drop 0).take 2).any
        (fun x => (decEntry natCodec natCodec x).isNone) = true ∧
    (ReadOnlyTable.get_many natCodec natCodec [([1], [2]), ([3], [])]
        none none = .error .ioInvalidData ∧
    ReadOnlyTable.get_many_where natCodec natCodec [([1], [2]), ([3], [])]
        none none (fun _ _ => true) = .error .ioInvalidData) :=
  ⟨by decide, get_many_decode_failure_aborts natCodec natCodec
    (fun _ _ => true) [([1], [2]), ([3], [])] none none (by decide)⟩

/-! ## Helper lemmas about `extract_if` and `remove_where` -/

/-- The drain of `extract_if` aborts exactly when the predicate closure
panics on some entry of the table. -/
theorem extractIf_eq_none_iff (q : Bytes → Bytes → Option Bool) (t : RawTable) :
    extractIf q t = none ↔ ∃ e ∈ t, q e.1 e.2 = none := by
  induction t with
  | nil => simp [extractIf]
  | cons hd tl ih =>
    obtain ⟨kb, vb⟩ := hd
    cases hq : q kb vb with
    | none => simp [extractIf, hq]
    | some b =>
      cases b
      · simp [extractIf, hq, Option.map_eq_none', ih]
      · simp [extractIf, hq, Option.map_eq_none', ih]

/-- The `remove_where` closure (lib.rs 319-323) panics exactly when the
entry fails to decode. -/
theorem remove_where_closure_none {K V : Type} (cK : Codec K) (cV : Codec V)
    (p : K → V → Bool) (kb vb : Bytes) :
    ((match cK.decode kb with
      | some (k, _) =>
        match cV.decode vb with
        | some (v, _) => some (p k v)
        | none => none
      | none => none) = (none : Option Bool)) ↔
      decEntry cK cV (kb, vb) = none := by
  cases hk : cK.decode kb with
  | none => simp [decEntry, hk]
  | some kn =>
    obtain ⟨k, nk⟩ := kn
    cases hv : cV.decode vb with
    | none => simp [decEntry, hk, hv]
    | some vn =>
      obtain ⟨v, nv⟩ := vn
      simp [decEntry, hk, hv]

/-- `remove_where` panics (aborts) exactly when some entry of the table
fails to decode. -/
theorem remove_where_eq_none_iff {K V : Type} (cK : Codec K) (cV : Codec V)
    (p : K → V → Bool) (t : RawTable) :
    Table.remove_where cK cV p t = none ↔
      ∃ e ∈ t, decEntry cK cV e = none := by
  simp only [Table.remove_where, Option.map_eq_none']
  rw [extractIf_eq_none_iff]
  exact exists_congr fun e =>
    and_congr_right fun _ => remove_where_closure_none cK cV p e.1 e.2

/-! ## C2: `remove_where` partitions the table by the predicate -/

/-- Claim C2 (confirmed).  When `remove_where(p)` completes (it aborts
iff some entry is undecodable, see the `remove_where` lemmas), the table
retains exactly the entries whose decoded pair makes `p` false, and the
returned sequence is exactly the decoded entries for which `p` returned
true — each wrapped in `some`, since under a pure codec the post-
extraction re-decode cannot fail — in engine iteration order. -/
theorem remove_where_partition {K V : Type} (cK : Codec K) (cV : Codec V)
    (p : K → V → Bool) (t : RawTable) :
    ∀ (res : List (Option (K × V))) (t1 : RawTable),
      Table.remove_where cK cV p t = some (res, t1) →
      t1 = t.filter (fun e =>
          match decEntry cK cV e with
          | some kv => !p kv.1 kv.2
          | none => false) ∧
      res = ((t.filterMap (fun e => decEntry cK cV e)).filter
          (fun kv => p kv.1 kv.2)).map some := by
  induction t with
  | nil =>
    intro res t1 h
    simp [Table.remove_where, extractIf] at h
    simp [h.1, h.2]
  | cons hd tl ih =>
    intro res t1 h
    obtain ⟨kb, vb⟩ := hd
    simp only [Table.remove_where, extractIf] at h
    cases hk : cK.decode kb with
    | none => rw [hk] at h; simp at h
    | some kn =>
      obtain ⟨k, nk⟩ := kn
      rw [hk] at h
      cases hv : cV.decode vb with
      | none => rw [hv] at h; simp at h
      | some vn =>
        obtain ⟨v, nv⟩ := vn
        rw [hv] at h
        have hde : decEntry cK cV (kb, vb) = some (k, v) := by
          simp [decEntry, hk, hv]
        cases hp : p k v with
        | false =>
          simp only [hp] at h
          cases hex : extractIf (fun kb vb =>
              match cK.decode kb with
              | some (k, _) =>
                match cV.decode vb with
                | some (v, _) => some (p k v)
                | none => none
              | none => none) tl with
          | none => rw [hex] at h; simp at h
          | some pr =>
            rw [hex] at h
            simp only [Option.map_some', Option.some.injEq, Prod.mk.injEq] at h
            obtain ⟨hres, ht1⟩ := h
            have htl : Table.remove_where cK cV p tl =
                some (pr.1.map (fun e => decEntry cK cV e), pr.2) := by
              simp only [Table.remove_where]
              rw [hex]
              rfl
            obtain ⟨ih1, ih2⟩ := ih (pr.1.map (fun e => decEntry cK cV e)) pr.2 htl
            constructor
            · rw [← ht1, ih1]
              simp [List.filter_cons, hde, hp]
            · rw [← hres, ih2]
              simp [List.filterMap_cons, hde, List.filter_cons, hp]
        | true =>
          simp only [hp] at h
          cases hex : extractIf (fun kb vb =>
              match cK.decode kb with
              | some (k, _) =>
                match cV.decode vb with
                | some (v, _) => some (p k v)
                | none => none
              | none => none) tl with
          | none => rw [hex] at h; simp at h
          | some pr =>
            rw [hex] at h
            simp only [Option.map_some', Option.some.injEq, Prod.mk.injEq,
              List.map_cons] at h
            obtain ⟨hres, ht1⟩ := h
            have htl : Table.remove_where cK cV p tl =
                some (pr.1.map (fun e => decEntry cK cV e), pr.2) := by
              simp only [Table.remove_where]
              rw [hex]
              rfl
            obtain ⟨ih1, ih2⟩ := ih (pr.1.map (fun e => decEntry cK cV e)) pr.2 htl
            constructor
            · rw [← ht1, ih1]
              simp [List.filter_cons, hde, hp]
            · rw [← hres, ih2]
              simp [List.filterMap_cons, hde, List.filter_cons, hp]

/-- Concrete discharge of C2: a two-entry table split by the predicate
`key = 1`. -/
theorem remove_where_partition_witness :
    Table.remove_where natCodec natCodec (fun k _ => k == 1)
        [([1], [10]), ([2], [20])] = some ([some (1, 10)], [([2], [20])]) ∧
    (([([2], [20])] : RawTable) =
        ([([1], [10]), ([2], [20])] : RawTable).filter (fun e =>
          match decEntry natCodec natCodec e with
          | some kv => !(kv.1 == 1)
          | none => false) ∧
      ([some (1, 10)] : List (Option (Nat × Nat))) =
        ((([([1], [10]), ([2], [20])] : RawTable).filterMap
            (fun e => decEntry natCodec natCodec e)).filter
          (fun kv => kv.1 == 1)).map some) :=
  ⟨rfl, remove_where_partition natCodec natCodec (fun k _ => k == 1)
    [([1], [10]), ([2], [20])] [some (1, 10)] [([2], [20])] rfl⟩

/-! ## C3: undecodable entries make `remove_where` panic, not omit -/

/-- Claim C3, counterexample.  The claim says `remove_where` neither
aborts nor panics on an entry whose raw key fails to decode, silently
omitting it from the result instead.  On the one-entry table whose key is
the undecodable empty byte string, the decode `unwrap` inside the
`extract_if` closure (lib.rs 320) panics, embedded as `none`: the call
aborts rather than returning a result with the entry omitted. -/
theorem remove_where_counterexample_panics :
    Table.remove_where natCodec natCodec (fun _ _ => true) [([], [0])] =
      none := rfl

/-- Claim C3 (corrected).  Amended: `remove_where(p)` panics (aborts) as
soon as any entry's raw key or raw value fails to decode, because the
closure handed to the engine's extraction primitive unwraps both decodes;
an extracted entry could appear as `none` in the result only if the
post-extraction re-decode failed, which cannot happen for a pure codec,
so undecodable entries are never silently omitted — they abort the
call. -/
theorem remove_where_aborts_on_undecodable {K V : Type} (cK : Codec K)
    (cV : Codec V) (p : K → V → Bool) (t : RawTable)
    (h : t.any (fun e => (decEntry cK cV e).isNone) = true) :
    Table.remove_where cK cV p t = none := by
  rw [remove_where_eq_none_iff]
  rw [List.any_eq_true] at h
  obtain ⟨e, he, hn⟩ := h
  exact ⟨e, he, Option.isNone_iff_eq_none.mp hn⟩

/-- Concrete discharge of C3's amended statement: an undecodable value
byte string aborts the call. -/
theorem remove_where_aborts_on_undecodable_witness :
    (([([5], ([] : Bytes))] : RawTable).any
        (fun e => (decEntry natCodec natCodec e).isNone) = true) ∧
    Table.remove_where natCodec natCodec (fun _ _ => false)
        [([5], [])] = none :=
  ⟨by decide, remove_where_aborts_on_undecodable natCodec natCodec
    (fun _ _ => false) [([5], [])] (by decide)⟩

/-! ## C7: the panic surface of the layer -/

/-- Claim C7, counterexample.  The claim says every failure other than a
scratch-buffer re-entrancy violation or an encode failure is returned as
an error value; but `Database::new` (database.rs 18) `unwrap`s the
engine's `create` result, so a storage error there panics (embedded as
`none`) instead of being returned. -/
theorem database_new_panics_on_create_error :
    Database.new (.error .io) = none := rfl

/-- Claim C7 (corrected).  Amended: besides the re-entrancy and encode
panics, `Database::new` panics exactly when the engine's `create` fails
with a storage error, and `remove_where` panics exactly when some entry
of the table fails to decode; the remaining modelled failures (decode
failures in `get_many`, `get_many_where`, `Readable::get`,
`Writeable::extract`) are returned as error values. -/
theorem panic_surface_characterization :
    (∀ r : Except StorageErr DbState, Database.new r = none ↔
        ∃ e, r = .error e) ∧
    (∀ (K V : Type) (cK : Codec K) (cV : Codec V) (p : K → V → Bool)
        (t : RawTable),
      Table.remove_where cK cV p t = none ↔
        ∃ x ∈ t, decEntry cK cV x = none) := by
  constructor
  · intro r
    cases r with
    | ok st => simp [Database.new]
    | error e => exact iff_of_true rfl ⟨e, rfl⟩
  · intro K V cK cV p t
    exact remove_where_eq_none_iff cK cV p t

/-! ## C8: `delete_table` never commits its write transaction -/

/-- Claim C8 (code bug).  `Database::delete_table` (database.rs 37-44)
finds the named table and calls the raw deletion through
`begin_write()?.as_raw().delete_table(..)`, returning the engine's
`true`; but the write transaction is dropped at the end of the statement
without `commit`, so — per the layer's own transaction discipline (tx.rs,
spec §3: a write transaction "must be explicitly committed or it is
discarded") — the deletion is rolled back: the committed state never
changes and a subsequent `list_tables` still includes the name. -/
theorem delete_table_true_but_table_remains :
    Database.delete_table ⟨⟨[("t", [([1], [2])])]⟩⟩ "t" =
      (true, ⟨⟨[("t", [([1], [2])])]⟩⟩) ∧
    (Database.delete_table ⟨⟨[("t", [([1], [2])])]⟩⟩ "t").2.list_tables =
      ["t"] ∧
    ∀ (db : Database) (name : String),
      (Database.delete_table db name).2 = db := by
  refine ⟨rfl, rfl, ?_⟩
  intro db name
  unfold Database.delete_table
  cases db.state.tables.find? (fun e => e.1 == name) <;> rfl

/-! ## C10: decode failures surfaced as NotFound by the blanket traits -/

/-- Claim C10 (confirmed).  When a key is present but its stored value
bytes fail to decode, the blanket `Readable::get` and
`Writeable::extract` (traits.rs 43-48, 128-133) replace the decode error
by an I/O error of kind `NotFound` with message "not found" — neither a
decode error nor an absent `Ok(None)` result. -/
theorem decode_failure_reported_as_not_found {K V : Type} (cK : Codec K)
    (cV : Codec V) (t : RawTable) (k : K) (bs : Bytes)
    (hget : rawGet t (cK.encode k) = some bs)
    (hdec : cV.decode bs = none) :
    Readable.get cK cV t k = .error (.ioNotFound "not found") ∧
    (Writeable.extract cK cV t k).1 = .error (.ioNotFound "not found") := by
  constructor
  · simp [Readable.get, Table.get, hget, AccessGuard.value, hdec]
  · have hrm : (rawRemove t (cK.encode k)).1 = some bs := by
      rw [rawRemove_fst]
      exact hget
    simp [Writeable.extract, Table.remove, hrm, AccessGuard.value, hdec]

/-- Concrete discharge of C10: key `5` is present with the undecodable
empty byte string as its stored value. -/
theorem decode_failure_reported_as_not_found_witness :
    rawGet [([5], [])] (natCodec.encode 5) = some [] ∧
    natCodec.decode ([] : Bytes) = none ∧
    (Readable.get natCodec natCodec [([5], [])] 5 =
        .error (.ioNotFound "not found") ∧
      (Writeable.extract natCodec natCodec [([5], [])] 5).1 =
        .error (.ioNotFound "not found")) :=
  ⟨rfl, rfl, decode_failure_reported_as_not_found natCodec natCodec
    [([5], [])] 5 [] rfl rfl⟩
